import Mathlib

/-!
# Verification of NeuroPy placefield computations

Shallow embedding of `neuropy/analyses/placefields.py` (classes `Pf1D`,
`Pf2D`, `PlacefieldND`, `PfND` and the helper `_normalized_occupancy`).

Modelling conventions:
* Python floats are modelled as exact rationals (`ℚ`).  The only float
  phenomenon the code manipulates explicitly, NaN, is modelled by the
  two-constructor type `NFloat` (`nan` or `val q`); it is used exactly where
  the source stores NaN into an array (`_compute_tuning_map`'s occupancy
  sentinel trick).
* numpy histogram semantics are translated exactly: with edges
  `e_0 < … < e_n`, bin `i < n-1` is `[e_i, e_{i+1})` and the last bin is
  closed, `[e_{n-1}, e_n]`; samples outside `[e_0, e_n]` are not counted.
* scipy's `gaussian_filter1d` is an external library call.  Its algorithm is
  kept exactly (truncated kernel of radius `int(4*sigma + 0.5)`, normalized
  symmetric weights, correlation with `reflect` boundary handling); only the
  transcendental profile `exp (-t)` is replaced by the strictly positive,
  strictly-decreasing rational profile `1 / (1 + t + t^2/2)` (the reciprocal
  of the truncated exponential series), since `exp` has no rational values.
  Every theorem below that touches smoothing depends only on the weights
  being strictly positive and normalized, which holds for the true Gaussian
  profile as well; generic lemmas are stated over arbitrary positive
  profiles so the concrete profile choice is provably irrelevant.
-/

namespace NeuroPy

/-- Model of a float that may be NaN: `nan` or a finite value `val q`.
(Infinities never arise on the executed paths of the embedded code: division
is only performed after every zero denominator has been replaced by NaN.) -/
inductive NFloat where
  | nan : NFloat
  | val : ℚ → NFloat
deriving DecidableEq, Repr

/-- Model of `np.isnan` on a single element. -/
def NFloat.isNan : NFloat → Bool
  | .nan => true
  | .val _ => false

/-- IEEE division as used by the embedded code.  NaN propagates through
division.  The `b = 0` case would be `±inf` (or NaN for `0/0`) in IEEE
arithmetic; in `_compute_tuning_map` the divisor array has every zero entry
replaced by NaN before any division happens, so that case is unreachable
there (see `maskZeroToNan_no_val_zero`); we collapse it to NaN. -/
def NFloat.div : NFloat → NFloat → NFloat
  | .nan, _ => .nan
  | .val _, .nan => .nan
  | .val a, .val b => if b = 0 then .nan else .val (a / b)

/-- Model of `np.nan_to_num(·, nan=0.0)` on one element: NaN becomes `0.0`, finite
values pass through. -/
def NFloat.toNumOrZero : NFloat → ℚ
  | .nan => 0
  | .val q => q

/-- A list of floats contains no NaN entry. -/
def nanFree (l : List NFloat) : Bool := l.all (fun o => !o.isNan)

/-- An occupancy 2-D array contains no NaN entry in any row. -/
def nanFree2 (occ : List (List NFloat)) : Bool := occ.all nanFree

/-! ## numpy histograms -/

/-- Whether value `v` falls in bin `i` of the edge list `edges`
(`np.histogram` semantics: half-open bins, last bin closed). -/
def inBin (edges : List ℚ) (i : ℕ) (v : ℚ) : Bool :=
  decide (edges.getD i 0 ≤ v) &&
    (decide (v < edges.getD (i+1) 0) ||
      (decide (i + 2 = edges.length) && decide (v ≤ edges.getD (i+1) 0)))

/-- Model of `np.histogram(xs, bins=edges)[0]`, counts returned as floats. -/
def histogram (xs : List ℚ) (edges : List ℚ) : List ℚ :=
  (List.range (edges.length - 1)).map
    (fun i => ((xs.filter (inBin edges i)).length : ℚ))

/-- Model of `np.histogram2d(xs, ys, bins=(xbin, ybin))[0]`: entry `(i, j)` counts the
samples `(x, y)` with `x` in bin `i` of `xbin` and `y` in bin `j` of `ybin`.
`x` is binned along the first axis (rows), `y` along the second (columns). -/
def histogram2d (xs ys : List ℚ) (xbin ybin : List ℚ) : List (List ℚ) :=
  (List.range (xbin.length - 1)).map
    (fun i => (List.range (ybin.length - 1)).map
      (fun j =>
        (((xs.zip ys).filter
          (fun p => inBin xbin i p.1 && inBin ybin j p.2)).length : ℚ)))

/-! ## scipy Gaussian smoothing (external library, algorithm kept exactly) -/

/-- Modelled from the spec: the Gaussian profile `exp (-t)` used by scipy to
build the smoothing kernel.  `exp` takes no rational values, so the model
uses the strictly positive rational stand-in `1 / (1 + t + t^2/2)`; all
theorems involving smoothing rely only on strict positivity of the profile
on nonnegative arguments (`gaussProfile_pos`), which the true Gaussian
profile shares. -/
def gaussProfile (t : ℚ) : ℚ := 1 / (1 + t + t^2 / 2)

/-- scipy's kernel radius: `int(truncate * sigma + 0.5)` with the default
`truncate = 4.0`. -/
def gaussRadius (σ : ℚ) : ℕ := (⌊4 * σ + 1/2⌋).toNat

/-- Unnormalized kernel weights `φ (k² / (2σ²))` for `k = -r, …, r`,
generically in the profile `φ`. -/
def gaussWeightsRaw (φ : ℚ → ℚ) (σ : ℚ) : List ℚ :=
  (List.range (2 * gaussRadius σ + 1)).map
    (fun (j : ℕ) =>
      φ (((((j : ℤ) - (gaussRadius σ : ℤ)) ^ 2 : ℤ) : ℚ) / (2 * σ ^ 2)))

/-- Normalized kernel weights (scipy divides by the weight sum). -/
def gaussWeights (φ : ℚ → ℚ) (σ : ℚ) : List ℚ :=
  let raw := gaussWeightsRaw φ σ
  raw.map (fun w => w / raw.sum)

/-- scipy `mode='reflect'` index mapping (`(d c b a | a b c d | d c b a)`):
fold an arbitrary integer index into `[0, n)`. -/
def reflectIndex (n : ℕ) (i : ℤ) : ℕ :=
  let m := (i % (2 * (n : ℤ))).toNat
  if m < n then m else 2 * n - 1 - m

/-- Model of `scipy.ndimage.gaussian_filter1d(xs, sigma)` generically in the kernel
profile `φ`: correlation of `xs` with the normalized truncated kernel, with
reflected boundary handling. -/
def gaussianFilter1dWith (φ : ℚ → ℚ) (σ : ℚ) (xs : List ℚ) : List ℚ :=
  let r := gaussRadius σ
  let w := gaussWeights φ σ
  (List.range xs.length).map (fun (i : ℕ) =>
    ((List.range (2 * r + 1)).map (fun (j : ℕ) =>
      w.getD j 0 *
        xs.getD (reflectIndex xs.length ((i : ℤ) + (j : ℤ) - (r : ℤ))) 0)).sum)

/-- Model of `scipy.ndimage.gaussian_filter1d` with the concrete profile. -/
def gaussian_filter1d (σ : ℚ) (xs : List ℚ) : List ℚ :=
  gaussianFilter1dWith gaussProfile σ xs

/-- Filtering along axis 1 (a 1-D pass inside each row) of a 2-D array. -/
def filterAxis1 (σ : ℚ) (xss : List (List ℚ)) : List (List ℚ) :=
  xss.map (gaussian_filter1d σ)

/-- Filtering along axis 0 (a 1-D pass down each column) of a 2-D array. -/
def filterAxis0 (σ : ℚ) (xss : List (List ℚ)) : List (List ℚ) :=
  (filterAxis1 σ xss.transpose).transpose

/-- Model of `scipy.ndimage.gaussian_filter(xss, sigma=(σ0, σ1))`: separable
filtering, axis 0 with `σ0` then axis 1 with `σ1`.  A zero sigma gives
radius `int(0.5) = 0`, i.e. the identity kernel, exactly as in scipy. -/
def gaussian_filter2d (σ0 σ1 : ℚ) (xss : List (List ℚ)) : List (List ℚ) :=
  filterAxis1 σ1 (filterAxis0 σ0 xss)

/-! ## `_normalized_occupancy` (module-level helper, lines 250-272) -/

/-- The `1e-16` guard constant the source adds to denominators. -/
def eps : ℚ := 1 / 10 ^ 16

/-- Embeds `_normalized_occupancy(raw_occupancy, position_srate)`: returns
`(seconds_occupancy, normalized_occupancy)` where
`seconds = raw / (srate + 1e-16)` and
`normalized = raw / (nansum(raw) + 1e-16)`.  (Occupancy arrays are
histogram outputs, NaN-free, so `np.nansum` is the plain sum.) -/
def normalizedOccupancy (raw : List ℚ) (position_srate : ℚ) :
    List ℚ × List ℚ :=
  (raw.map (fun c => c / (position_srate + eps)),
   raw.map (fun c => c / (raw.sum + eps)))

/-! ## TuningMapEngine (`Pf1D`, `Pf2D`, `PlacefieldND` `_compute_*` statics) -/

/-- Class constant `PfnDMixin.should_smooth_spikes_map` (source line 284). -/
def should_smooth_spikes_map : Bool := false

/-- Class constant `PfnDMixin.should_smooth_final_tuning_map` (line 286). -/
def should_smooth_final_tuning_map : Bool := true

/-- Condition `smooth is not None and smooth > 0.0` for a scalar sigma. -/
def smoothPos1 : Option ℚ → Bool
  | some s => decide (0 < s)
  | none => false

/-- Condition `smooth is not None and (smooth[0] > 0.0) & (smooth[1] > 0.0)` for a
two-component sigma (the `Pf2D` branch condition). -/
def smoothPosBoth : Option (ℚ × ℚ) → Bool
  | some (s0, s1) => decide (0 < s0) && decide (0 < s1)
  | none => false

/-- Condition `smooth is not None and any(s > 0.0 for s in smooth)` for a
two-component sigma (the `PlacefieldND` branch condition, at dimension 2). -/
def smoothPosAny : Option (ℚ × ℚ) → Bool
  | some (s0, s1) => decide (0 < s0) || decide (0 < s1)
  | none => false

/-- Embeds `occupancy[occupancy == 0.0] = np.nan`: replace every entry equal to
`0.0` by NaN (a NaN entry compares unequal to `0.0`, so it is untouched). -/
def maskZeroToNan (occ : List NFloat) : List NFloat :=
  occ.map (fun o => if o = .val 0 then .nan else o)

/-- Embeds `occupancy[np.isnan(occupancy)] = 0.0`: replace every NaN entry
(sentinel or pre-existing) by `0.0`. -/
def restoreNanToZero (occ : List NFloat) : List NFloat :=
  occ.map (fun o => if o.isNan then .val 0 else o)

/-- Element-wise `np.nan_to_num(spikes_map / occupancy, nan=0.0)` for a
spike-count array (plain floats) divided by an occupancy array that may
hold NaN sentinels. -/
def divNanToNum (spikes : List ℚ) (occ : List NFloat) : List ℚ :=
  List.zipWith (fun s o => (NFloat.div (.val s) o).toNumOrZero) spikes occ

/-- Version of `divNanToNum` for 2-D arrays, entry by entry. -/
def divNanToNum2 (spikes : List (List ℚ)) (occ : List (List NFloat)) :
    List (List ℚ) :=
  List.zipWith divNanToNum spikes occ

namespace Pf1D

/-- Embeds `Pf1D._compute_spikes_map(spk_x, xbin, smooth)` (lines 489-496):
histogram of spike positions, Gaussian-smoothed when `smooth > 0`.
Returns `(spikes_map, unsmoothed_spikes_map)`. -/
def compute_spikes_map (spk_x xbin : List ℚ) (smooth : Option ℚ) :
    List ℚ × List ℚ :=
  let unsmoothed_spikes_map := histogram spk_x xbin
  if smoothPos1 smooth then
    (gaussian_filter1d (smooth.getD 0) unsmoothed_spikes_map,
      unsmoothed_spikes_map)
  else (unsmoothed_spikes_map, unsmoothed_spikes_map)

/-- Result of `Pf1D._compute_tuning_map`: the two returned maps plus the
state of the caller's `occupancy` array after the call (the source mutates
it in place: zero entries → NaN sentinel before the divisions, every NaN →
`0.0` afterwards). -/
structure TuningMapResult where
  occupancy_weighted_tuning_map : List ℚ
  never_smoothed_occupancy_weighted_tuning_map : List ℚ
  occupancy_after : List NFloat
deriving DecidableEq, Repr

/-- Embeds `Pf1D._compute_tuning_map(spk_x, xbin, occupancy, smooth)`
(lines 498-522), with `should_smooth_spikes_map = False` and
`should_smooth_final_tuning_map = True` as in the source class constants. -/
def compute_tuning_map (spk_x xbin : List ℚ) (occupancy : List NFloat)
    (smooth : Option ℚ) : TuningMapResult :=
  let smooth_spikes_map := if should_smooth_spikes_map then smooth else none
  let sm := compute_spikes_map spk_x xbin smooth_spikes_map
  let occ1 := maskZeroToNan occupancy
  let never_smoothed := divNanToNum sm.2 occ1
  let unsmoothed_owtm := divNanToNum sm.1 occ1
  let occ2 := restoreNanToZero occ1
  let final :=
    if should_smooth_final_tuning_map && smoothPos1 smooth then
      gaussian_filter1d (smooth.getD 0) unsmoothed_owtm
    else unsmoothed_owtm
  ⟨final, never_smoothed, occ2⟩

end Pf1D

namespace Pf2D

/-- Embeds `Pf2D._compute_occupancy(x, y, xbin, ybin, …, smooth)` restricted to the
`should_return_num_pos_samples_occupancy=True` branch (lines 529-550):
returns `(num_pos_samples_occupancy, num_pos_samples_unsmoothed_occupancy)`.
Note the branch condition requires BOTH sigma components positive, and the
sigma pair is flipped (`sigma=(smooth[1], smooth[0])`) when smoothing. -/
def compute_occupancy_counts (x y xbin ybin : List ℚ)
    (smooth : Option (ℚ × ℚ)) : List (List ℚ) × List (List ℚ) :=
  let raw := histogram2d x y xbin ybin
  if smoothPosBoth smooth then
    (gaussian_filter2d (smooth.getD (0, 0)).2 (smooth.getD (0, 0)).1 raw, raw)
  else (raw, raw)

/-- The seconds-units outputs of `Pf2D._compute_occupancy` (default branch,
lines 551-554): both count arrays are scaled entry-wise by
`1 / (position_srate + 1e-16)` through `_normalized_occupancy`. -/
def compute_occupancy (x y xbin ybin : List ℚ) (position_srate : ℚ)
    (smooth : Option (ℚ × ℚ)) : List (List ℚ) × List (List ℚ) :=
  let counts := compute_occupancy_counts x y xbin ybin smooth
  (counts.1.map (fun row => (normalizedOccupancy row position_srate).1),
   counts.2.map (fun row => (normalizedOccupancy row position_srate).1))

/-- Embeds `Pf2D._compute_spikes_map(spk_x, spk_y, xbin, ybin, smooth)`
(lines 556-564). -/
def compute_spikes_map (spk_x spk_y xbin ybin : List ℚ)
    (smooth : Option (ℚ × ℚ)) : List (List ℚ) × List (List ℚ) :=
  let unsmoothed_spikes_map := histogram2d spk_x spk_y xbin ybin
  if smoothPosBoth smooth then
    (gaussian_filter2d (smooth.getD (0, 0)).2 (smooth.getD (0, 0)).1
        unsmoothed_spikes_map,
      unsmoothed_spikes_map)
  else (unsmoothed_spikes_map, unsmoothed_spikes_map)

/-- Result of `Pf2D._compute_tuning_map` (cf. `Pf1D.TuningMapResult`). -/
structure TuningMapResult where
  occupancy_weighted_tuning_map : List (List ℚ)
  never_smoothed_occupancy_weighted_tuning_map : List (List ℚ)
  occupancy_after : List (List NFloat)
deriving DecidableEq, Repr

/-- Embeds `Pf2D._compute_tuning_map(spk_x, spk_y, xbin, ybin, occupancy, smooth)`
(lines 566-590). -/
def compute_tuning_map (spk_x spk_y xbin ybin : List ℚ)
    (occupancy : List (List NFloat)) (smooth : Option (ℚ × ℚ)) :
    TuningMapResult :=
  let smoothing_widths := if should_smooth_spikes_map then smooth else none
  let sm := compute_spikes_map spk_x spk_y xbin ybin smoothing_widths
  let occ1 := occupancy.map maskZeroToNan
  let never_smoothed := divNanToNum2 sm.2 occ1
  let unsmoothed_owtm := divNanToNum2 sm.1 occ1
  let occ2 := occ1.map restoreNanToZero
  let final :=
    if should_smooth_final_tuning_map && smoothPosBoth smooth then
      gaussian_filter2d (smooth.getD (0, 0)).2 (smooth.getD (0, 0)).1
        unsmoothed_owtm
    else unsmoothed_owtm
  ⟨final, never_smoothed, occ2⟩

end Pf2D

namespace PlacefieldND

/-- Embeds `PlacefieldND._compute_occupancy(position, bins, …, smooth)` specialized
to two dimensions and the counts branch (lines 631-641): `np.histogramdd`
over samples `(x, y)` coincides with `np.histogram2d`; the smoothing branch
keeps the source's `any(s > 0.0 for s in smooth)` condition and the
UNflipped sigma order `sigma=smooth`. -/
def compute_occupancy_counts_2d (x y xbin ybin : List ℚ)
    (smooth : Option (ℚ × ℚ)) : List (List ℚ) × List (List ℚ) :=
  let raw := histogram2d x y xbin ybin
  if smoothPosAny smooth then
    (gaussian_filter2d (smooth.getD (0, 0)).1 (smooth.getD (0, 0)).2 raw, raw)
  else (raw, raw)

/-- The occupancy-array mutation performed by
`PlacefieldND._compute_tuning_map` (lines 667 and 672), acting element-wise
on the N-D occupancy array (represented here by its element sequence):
`occupancy[occupancy == 0.0] = np.nan` before the divisions, then
`occupancy[np.isnan(occupancy)] = 0.0`. -/
def tuning_map_occupancy_after (occupancy : List NFloat) : List NFloat :=
  restoreNanToZero (maskZeroToNan occupancy)

end PlacefieldND

/-! ## PeakRateFilter (`PfND._build_peak_frate_filter`, lines 1344-1375) -/

/-- Model of `np.nanmax` of a tuning map (tuning maps are NaN-free: they come out of
`np.nan_to_num`).  `np.nanmax` raises on an empty array; the `[]` case is a
junk value, unreachable for nonempty maps. -/
def nanmax : List ℚ → ℚ
  | [] => 0
  | x :: xs => xs.foldl max x

/-- Embeds `PfND._build_peak_frate_filter(tuning_maps, frate_thresh)`: the list of
neuron indices whose peak tuning-map value strictly exceeds the threshold
(`np.nanmax(tuning_maps[i]) > frate_thresh`). -/
def build_peak_frate_filter (tuning_maps : List (List ℚ))
    (frate_thresh : ℚ) : List ℕ :=
  (List.range tuning_maps.length).filter
    (fun i => decide (frate_thresh < nanmax (tuning_maps.getD i [])))

/-- The returned `filter_function`: `lambda list_: [list_[_] for _ in
included_thresh_neurons_indx]`. -/
def peak_frate_filter_function {α : Type} (included : List ℕ)
    (l : List α) : List α :=
  included.filterMap (fun i => l.get? i)

/-! ## EpochSpeedFilter (`PfND.filtered_by_speed`, lines 1249-1298) -/

/-- One row of the position dataframe: columns `t`, `x`, `speed`. -/
structure PosSample where
  t : ℚ
  x : ℚ
  speed : ℚ
deriving DecidableEq, Repr

/-- One row of the epochs dataframe: a time interval `[start, stop)`. -/
structure Epoch where
  start : ℚ
  stop : ℚ
deriving DecidableEq, Repr

/-- One row of the dataframe returned by `filtered_by_speed`. -/
structure EpochRow where
  label : ℤ
  start : ℚ
  stop : ℚ
  n_samples : ℕ
  duration : ℚ
deriving DecidableEq, Repr

/-- Modelled from the spec: `add_epochs_id_identity`
(`neuropy.utils.mixins.time_slicing`, not present under `src/`).  Per spec
§4.2 each position sample is assigned to the epoch (if any) containing its
timestamp, with `no_interval_fill_value = -1` for samples in no epoch; per
spec §3 an epoch is the half-open interval `[start, stop)` and epochs are
normalized (sorted, non-overlapping), so the first containing epoch is the
unique one.  The id is the epoch's row index. -/
def epochIdOf (epochs : List Epoch) (t : ℚ) : ℤ :=
  match epochs with
  | [] => -1
  | e :: rest =>
    if e.start ≤ t ∧ t < e.stop then 0
    else
      let r := epochIdOf rest t
      if r = -1 then -1 else r + 1

/-- The position rows surviving both filters of `filtered_by_speed`, tagged
with their epoch id: drop samples with id `-1` (line 1269), then, when a
speed threshold is given, keep only the rows with `speed < speed_thresh`
(line 1280, a strict bound); with `speed_thresh=None` no speed filtering
happens. -/
def retainedWithId (epochs : List Epoch) (pos : List PosSample)
    (speed_thresh : Option ℚ) : List (ℤ × PosSample) :=
  let tagged := pos.map (fun s => (epochIdOf epochs s.t, s))
  let inEpoch := tagged.filter (fun p => p.1 != -1)
  match speed_thresh with
  | some v => inEpoch.filter (fun p => decide (p.2.speed < v))
  | none => inEpoch

/-- The set of position samples retained by `filtered_by_speed`. -/
def retained_by_speed (epochs : List Epoch) (pos : List PosSample)
    (speed_thresh : Option ℚ) : List PosSample :=
  (retainedWithId epochs pos speed_thresh).map (fun p => p.2)

/-- Ordered insertion into a sorted list of integers. -/
def insertSorted (a : ℤ) : List ℤ → List ℤ
  | [] => [a]
  | b :: bs => if a ≤ b then a :: b :: bs else b :: insertSorted a bs

/-- Insertion sort on integers (pandas `groupby` sorts group keys). -/
def sortInts : List ℤ → List ℤ
  | [] => []
  | a :: as => insertSorted a (sortInts as)

/-- The sorted distinct epoch ids occurring among the retained rows (the
group keys of `groupby(['decoder_epoch_id'])`). -/
def groupKeys (ret : List (ℤ × PosSample)) : List ℤ :=
  sortInts (ret.map (fun p => p.1)).dedup

/-- The rows of a given group, in dataframe order. -/
def groupRows (ret : List (ℤ × PosSample)) (id : ℤ) : List PosSample :=
  (ret.filter (fun p => p.1 == id)).map (fun p => p.2)

/-- The aggregated row for one group: `t_first` → `start`, `t_last` →
`stop`, `t_count` → `n_samples`, plus `duration = stop - start`
(lines 1284-1293; pandas `first`/`last` are positional within the group). -/
def groupAggRow (ret : List (ℤ × PosSample)) (id : ℤ) : EpochRow :=
  let ts := (groupRows ret id).map (fun s => s.t)
  let s := ts.headD 0
  let e := ts.getLastD 0
  ⟨id, s, e, ts.length, e - s⟩

/-- Embeds `PfND.filtered_by_speed(epochs_df, position_df, speed_thresh)`: the
returned `speed_filtered_epochs_df`, one aggregated row per group key. -/
def filtered_by_speed (epochs : List Epoch) (pos : List PosSample)
    (speed_thresh : Option ℚ) : List EpochRow :=
  let ret := retainedWithId epochs pos speed_thresh
  (groupKeys ret).map (groupAggRow ret)

/-- Read the output rows of `filtered_by_speed` back as epochs, for
re-application of the filter. -/
def rowsAsEpochs (rows : List EpochRow) : List Epoch :=
  rows.map (fun r => ⟨r.start, r.stop⟩)

/-! ## Helper lemmas -/

/-- Sanity check of the NaN-sentinel modelling: after
`occupancy[occupancy == 0.0] = np.nan` the array holds no `0.0` entry, so
the subsequent divisions never divide by a (finite) zero and the collapsed
`val a / val 0` case of `NFloat.div` is unreachable in
`_compute_tuning_map`. -/
theorem maskZeroToNan_no_val_zero (occ : List NFloat) :
    NFloat.val 0 ∉ maskZeroToNan occ := by
  intro h
  simp only [maskZeroToNan, List.mem_map] at h
  obtain ⟨o, -, ho⟩ := h
  by_cases h0 : o = NFloat.val 0 <;> simp [h0] at ho

theorem mem_insertSorted {a b : ℤ} {l : List ℤ} :
    a ∈ insertSorted b l ↔ a = b ∨ a ∈ l := by
  induction l with
  | nil => simp [insertSorted]
  | cons c cs ih =>
    by_cases h : b ≤ c
    · simp [insertSorted, h]
    · simp only [insertSorted, if_neg h, List.mem_cons, ih]
      tauto

theorem mem_sortInts {a : ℤ} {l : List ℤ} : a ∈ sortInts l ↔ a ∈ l := by
  induction l with
  | nil => simp [sortInts]
  | cons c cs ih => simp [sortInts, mem_insertSorted, ih]

theorem neg_one_le_epochIdOf (epochs : List Epoch) (t : ℚ) :
    -1 ≤ epochIdOf epochs t := by
  induction epochs with
  | nil => simp [epochIdOf]
  | cons e rest ih =>
    simp only [epochIdOf]
    split
    · norm_num
    · split
      · exact le_refl _
      · omega

theorem epochIdOf_ne_neg_one_iff (epochs : List Epoch) (t : ℚ) :
    epochIdOf epochs t ≠ -1 ↔ ∃ e ∈ epochs, e.start ≤ t ∧ t < e.stop := by
  induction epochs with
  | nil => simp [epochIdOf]
  | cons e rest ih =>
    simp only [epochIdOf]
    by_cases h : e.start ≤ t ∧ t < e.stop
    · simp [h]
    · have hle := neg_one_le_epochIdOf rest t
      by_cases hr : epochIdOf rest t = -1
      · simp only [if_neg h, hr, if_pos rfl]
        rw [show (∃ a ∈ e :: rest, a.start ≤ t ∧ t < a.stop) ↔
            (e.start ≤ t ∧ t < e.stop) ∨ ∃ a ∈ rest, a.start ≤ t ∧ t < a.stop
          by simp]
        rw [← ih]
        simp [h, hr]
      · simp only [if_neg h, if_neg hr]
        rw [show (∃ a ∈ e :: rest, a.start ≤ t ∧ t < a.stop) ↔
            (e.start ≤ t ∧ t < e.stop) ∨ ∃ a ∈ rest, a.start ≤ t ∧ t < a.stop
          by simp]
        rw [← ih]
        constructor
        · intro _
          right; exact hr
        · intro _
          omega

/-! ## Claims C3 and C4: the peak-firing-rate filter -/

/-- C3: for every list of tuning maps and every rate threshold,
`_build_peak_frate_filter` includes a neuron's index exactly when the
maximum value of that neuron's tuning map is strictly greater than the
threshold; a neuron whose peak equals the threshold exactly is excluded. -/
theorem C3_peak_filter_strict (tuning_maps : List (List ℚ))
    (frate_thresh : ℚ) (i : ℕ) (m : List ℚ)
    (hm : tuning_maps.get? i = some m) :
    i ∈ build_peak_frate_filter tuning_maps frate_thresh ↔
      frate_thresh < nanmax m := by
  obtain ⟨hi, hget⟩ := List.get?_eq_some.mp hm
  have hD : tuning_maps[i] = m := by simpa using hget
  simp [build_peak_frate_filter, List.mem_filter, List.mem_range, hi, hD]

/-- Witness for C3: the concrete scenario of the spec, a single neuron with
peak tuning-map value exactly `1.0` and `rate_threshold = 1.0`, is
excluded. -/
theorem C3_peak_filter_strict_witness :
    ([[ (1 : ℚ) ]].get? 0 = some [1]) ∧
      (0 ∈ build_peak_frate_filter [[ (1 : ℚ) ]] 1 ↔ (1 : ℚ) < nanmax [1]) :=
  ⟨by decide, C3_peak_filter_strict [[ (1 : ℚ) ]] 1 0 [1] (by decide)⟩

/-- C4: raising the rate threshold never adds a neuron: for `t1 < t2` the
included-index set at `t2` is a subset of the one at `t1`. -/
theorem C4_peak_filter_monotone (tuning_maps : List (List ℚ))
    (t1 t2 : ℚ) (h12 : t1 < t2) (i : ℕ)
    (hi : i ∈ build_peak_frate_filter tuning_maps t2) :
    i ∈ build_peak_frate_filter tuning_maps t1 := by
  simp only [build_peak_frate_filter, List.mem_filter, List.mem_range,
    decide_eq_true_eq] at hi ⊢
  exact ⟨hi.1, lt_trans h12 hi.2⟩

/-- Witness for C4 at a concrete input. -/
theorem C4_peak_filter_monotone_witness :
    (0 : ℚ) < 1 ∧ 0 ∈ build_peak_frate_filter [[ (2 : ℚ) ]] 0 :=
  ⟨by decide, C4_peak_filter_monotone [[ (2 : ℚ) ]] 0 1 (by decide) 0 (by decide)⟩

/-! ## Claims C2 and C10: the occupancy array after `_compute_tuning_map` -/

/-- The sentinel substitution followed by the restore step acts on each
entry like the restore step alone: a zero entry goes to NaN and back to
zero, any other entry is returned to its NaN-or-identity image. -/
theorem restore_mask_eq_restore (occ : List NFloat) :
    restoreNanToZero (maskZeroToNan occ) = restoreNanToZero occ := by
  induction occ with
  | nil => rfl
  | cons o t ih =>
    simp only [maskZeroToNan, restoreNanToZero, List.map_cons] at ih ⊢
    refine congrArg₂ _ ?_ ih
    cases o with
    | nan => simp [NFloat.isNan]
    | val q => by_cases hq : q = 0 <;> simp [hq, NFloat.isNan]

/-- Replacing the NaN entries of a list by zero is the identity exactly when
the list has no NaN entry. -/
theorem restoreNanToZero_eq_self_iff (occ : List NFloat) :
    restoreNanToZero occ = occ ↔ nanFree occ = true := by
  induction occ with
  | nil => simp [restoreNanToZero, nanFree]
  | cons o t ih =>
    have hcons : restoreNanToZero (o :: t) =
        (if o.isNan then NFloat.val 0 else o) :: restoreNanToZero t := rfl
    have hnf : nanFree (o :: t) = ((!o.isNan) && nanFree t) := rfl
    rw [hcons, hnf, List.cons_eq_cons, Bool.and_eq_true, Bool.not_eq_true', ih]
    cases o with
    | nan => simp [NFloat.isNan]
    | val q => simp [NFloat.isNan]

/-- The caller's occupancy array after `Pf1D._compute_tuning_map` is the
input with every NaN entry (sentinel or pre-existing) set to zero. -/
theorem Pf1D_occupancy_after_eq (spk_x xbin : List ℚ) (occ : List NFloat)
    (smooth : Option ℚ) :
    (Pf1D.compute_tuning_map spk_x xbin occ smooth).occupancy_after =
      restoreNanToZero occ := by
  simp [Pf1D.compute_tuning_map, restore_mask_eq_restore]

/-- The caller's occupancy array after `Pf2D._compute_tuning_map`, row by
row. -/
theorem Pf2D_occupancy_after_eq (spk_x spk_y xbin ybin : List ℚ)
    (occ : List (List NFloat)) (smooth : Option (ℚ × ℚ)) :
    (Pf2D.compute_tuning_map spk_x spk_y xbin ybin occ smooth).occupancy_after =
      occ.map restoreNanToZero := by
  simp only [Pf2D.compute_tuning_map, List.map_map]
  exact List.map_congr_left (fun row _ => restore_mask_eq_restore row)

theorem map_restoreNanToZero_eq_self_iff (occ : List (List NFloat)) :
    occ.map restoreNanToZero = occ ↔ nanFree2 occ = true := by
  induction occ with
  | nil => simp [nanFree2]
  | cons r t ih =>
    simp only [nanFree2, List.map_cons, List.all_cons, Bool.and_eq_true] at ih ⊢
    rw [List.cons_eq_cons, restoreNanToZero_eq_self_iff, ih]

/-- C2: for every NaN-free occupancy array, the caller's occupancy array is
element-wise unchanged after `_compute_tuning_map` returns: the temporary
NaN-sentinel substitution at zero-occupancy bins is fully undone, in the
1-D, 2-D and N-D variants (the N-D variant acts element-wise on the N-D
array, here represented by its element sequence). -/
theorem C2_occupancy_restored :
    (∀ (spk_x xbin : List ℚ) (occ : List NFloat) (smooth : Option ℚ),
      nanFree occ = true →
        (Pf1D.compute_tuning_map spk_x xbin occ smooth).occupancy_after = occ) ∧
    (∀ (spk_x spk_y xbin ybin : List ℚ) (occ : List (List NFloat))
        (smooth : Option (ℚ × ℚ)),
      nanFree2 occ = true →
        (Pf2D.compute_tuning_map spk_x spk_y xbin ybin occ smooth).occupancy_after
          = occ) ∧
    (∀ occ : List NFloat, nanFree occ = true →
      PlacefieldND.tuning_map_occupancy_after occ = occ) := by
  refine ⟨fun spk_x xbin occ smooth h => ?_,
    fun spk_x spk_y xbin ybin occ smooth h => ?_, fun occ h => ?_⟩
  · rw [Pf1D_occupancy_after_eq, restoreNanToZero_eq_self_iff]
    exact h
  · rw [Pf2D_occupancy_after_eq, map_restoreNanToZero_eq_self_iff]
    exact h
  · rw [PlacefieldND.tuning_map_occupancy_after, restore_mask_eq_restore,
      restoreNanToZero_eq_self_iff]
    exact h

/-- Witness for C2: a concrete NaN-free occupancy array round-trips through
all three variants. -/
theorem C2_occupancy_restored_witness :
    (nanFree [NFloat.val 2, NFloat.val 0] = true ∧
      (Pf1D.compute_tuning_map [] [] [NFloat.val 2, NFloat.val 0] none).occupancy_after
        = [NFloat.val 2, NFloat.val 0]) ∧
    (nanFree2 [[NFloat.val 0]] = true ∧
      (Pf2D.compute_tuning_map [] [] [] [] [[NFloat.val 0]] none).occupancy_after
        = [[NFloat.val 0]]) ∧
    (nanFree [NFloat.val 3] = true ∧
      PlacefieldND.tuning_map_occupancy_after [NFloat.val 3] = [NFloat.val 3]) :=
  ⟨⟨by decide, C2_occupancy_restored.1 [] [] [NFloat.val 2, NFloat.val 0] none
      (by decide)⟩,
   ⟨by decide, C2_occupancy_restored.2.1 [] [] [] [] [[NFloat.val 0]] none
      (by decide)⟩,
   ⟨by decide, C2_occupancy_restored.2.2 [NFloat.val 3] (by decide)⟩⟩

/-- C10: a pre-existing NaN entry of the occupancy array is permanently
overwritten with `0.0` by the restore step (`occupancy[np.isnan(occupancy)]
= 0.0` converts every NaN, original or sentinel), in all three variants;
consequently the caller's occupancy is restored exactly if and only if the
input occupancy was NaN-free. -/
theorem C10_nan_overwrite :
    (∀ (spk_x xbin : List ℚ) (occ : List NFloat) (smooth : Option ℚ) (i : ℕ),
      occ.get? i = some NFloat.nan →
        (Pf1D.compute_tuning_map spk_x xbin occ smooth).occupancy_after.get? i
          = some (NFloat.val 0)) ∧
    (∀ (spk_x spk_y xbin ybin : List ℚ) (occ : List (List NFloat))
        (smooth : Option (ℚ × ℚ)) (i j : ℕ) (row : List NFloat),
      occ.get? i = some row → row.get? j = some NFloat.nan →
        ∃ row' , (Pf2D.compute_tuning_map spk_x spk_y xbin ybin occ
            smooth).occupancy_after.get? i = some row' ∧
          row'.get? j = some (NFloat.val 0)) ∧
    (∀ (occ : List NFloat) (i : ℕ),
      occ.get? i = some NFloat.nan →
        (PlacefieldND.tuning_map_occupancy_after occ).get? i
          = some (NFloat.val 0)) ∧
    (∀ (spk_x xbin : List ℚ) (occ : List NFloat) (smooth : Option ℚ),
      (Pf1D.compute_tuning_map spk_x xbin occ smooth).occupancy_after = occ ↔
        nanFree occ = true) := by
  refine ⟨fun spk_x xbin occ smooth i hi => ?_,
    fun spk_x spk_y xbin ybin occ smooth i j row hi hj => ?_,
    fun occ i hi => ?_, fun spk_x xbin occ smooth => ?_⟩
  · rw [Pf1D_occupancy_after_eq, restoreNanToZero, List.get?_map, hi]
    rfl
  · refine ⟨restoreNanToZero row, ?_, ?_⟩
    · rw [Pf2D_occupancy_after_eq, List.get?_map, hi]
      rfl
    · rw [restoreNanToZero, List.get?_map, hj]
      rfl
  · rw [PlacefieldND.tuning_map_occupancy_after, restore_mask_eq_restore,
      restoreNanToZero, List.get?_map, hi]
    rfl
  · rw [Pf1D_occupancy_after_eq, restoreNanToZero_eq_self_iff]

/-- Witness for C10: a concrete occupancy array with a pre-existing NaN. -/
theorem C10_nan_overwrite_witness :
    ([NFloat.val 1, NFloat.nan].get? 1 = some NFloat.nan ∧
      (Pf1D.compute_tuning_map [] [] [NFloat.val 1, NFloat.nan]
          none).occupancy_after.get? 1 = some (NFloat.val 0)) ∧
    ([NFloat.nan].get? 0 = some NFloat.nan ∧
      (PlacefieldND.tuning_map_occupancy_after [NFloat.nan]).get? 0
        = some (NFloat.val 0)) :=
  ⟨⟨by decide, C10_nan_overwrite.1 [] [] [NFloat.val 1, NFloat.nan] none 1
      (by decide)⟩,
   ⟨by decide, C10_nan_overwrite.2.2.1 [NFloat.nan] 0 (by decide)⟩⟩

/-! ## Claim C9: `_normalized_occupancy` -/

/-- The sum of `raw / (raw.sum + eps)` over the whole array. -/
theorem sum_normalized (raw : List ℚ) (K : ℚ) :
    (raw.map (fun c => c / K)).sum = raw.sum / K := by
  simp only [div_eq_mul_inv]
  rw [List.sum_map_mul_right, List.map_id']

/-- C9: `_normalized_occupancy` returns `seconds_occupancy = raw /
(position_srate + 1e-16)` and `normalized_occupancy = raw / (sum(raw) +
1e-16)`; for nonnegative raw occupancy with at least one nonzero bin the
normalized occupancy sums to `sum / (sum + 1e-16)`, which lies within the
`eps` perturbation of `1` (strictly below `1`, and at least
`1 - eps / sum`). -/
theorem C9_normalized_occupancy (raw : List ℚ) (position_srate : ℚ)
    (hnn : ∀ c ∈ raw, 0 ≤ c) (hex : ∃ c ∈ raw, c ≠ 0) :
    (normalizedOccupancy raw position_srate).1 =
        raw.map (fun c => c / (position_srate + eps)) ∧
      (normalizedOccupancy raw position_srate).2 =
        raw.map (fun c => c / (raw.sum + eps)) ∧
      (normalizedOccupancy raw position_srate).2.sum =
        raw.sum / (raw.sum + eps) ∧
      1 - eps / raw.sum ≤ (normalizedOccupancy raw position_srate).2.sum ∧
      (normalizedOccupancy raw position_srate).2.sum < 1 := by
  obtain ⟨c, hc, hc0⟩ := hex
  have hcpos : 0 < c := lt_of_le_of_ne (hnn c hc) (Ne.symm hc0)
  have hS : 0 < raw.sum := lt_of_lt_of_le hcpos (List.single_le_sum hnn c hc)
  have heps : 0 < eps := by norm_num [eps]
  have hSe : 0 < raw.sum + eps := by linarith
  have h2 : (normalizedOccupancy raw position_srate).2 =
      raw.map (fun c => c / (raw.sum + eps)) := rfl
  refine ⟨rfl, rfl, sum_normalized raw _, ?_, ?_⟩
  · rw [h2, sum_normalized raw _]
    have h1 : 1 - eps / raw.sum = (raw.sum - eps) / raw.sum := by
      field_simp
    rw [h1, div_le_div_iff hS hSe]
    nlinarith [sq_nonneg eps]
  · rw [h2, sum_normalized raw _]
    rw [div_lt_one hSe]
    linarith

/-! ## Claims C5, C6, C7: the epoch/speed filter -/

/-- Membership characterization of the tagged retained rows. -/
theorem mem_retainedWithId (epochs : List Epoch) (pos : List PosSample)
    (th : Option ℚ) (p : ℤ × PosSample) :
    p ∈ retainedWithId epochs pos th ↔
      (p.2 ∈ pos ∧ p.1 = epochIdOf epochs p.2.t ∧ p.1 ≠ -1 ∧
        ∀ v, th = some v → p.2.speed < v) := by
  cases th with
  | none =>
    simp only [retainedWithId, List.mem_filter, List.mem_map, bne_iff_ne,
      ne_eq, decide_eq_true_eq]
    constructor
    · rintro ⟨⟨a, ha, rfl⟩, hid⟩
      exact ⟨ha, rfl, hid, by simp⟩
    · rintro ⟨ha, hid, hne, -⟩
      obtain ⟨i, s⟩ := p
      simp only at hid hne ⊢
      subst hid
      exact ⟨⟨s, ha, rfl⟩, hne⟩
  | some v =>
    simp only [retainedWithId, List.mem_filter, List.mem_map, bne_iff_ne,
      ne_eq, decide_eq_true_eq, Option.some.injEq]
    constructor
    · rintro ⟨⟨⟨a, ha, rfl⟩, hid⟩, hsp⟩
      exact ⟨ha, rfl, hid, fun w hw => hw ▸ hsp⟩
    · rintro ⟨ha, hid, hne, hsp⟩
      obtain ⟨i, s⟩ := p
      simp only at hid hne hsp ⊢
      subst hid
      exact ⟨⟨⟨s, ha, rfl⟩, hne⟩, hsp v rfl⟩

/-- Membership characterization of the retained samples. -/
theorem mem_retained_by_speed (epochs : List Epoch) (pos : List PosSample)
    (th : Option ℚ) (s : PosSample) :
    s ∈ retained_by_speed epochs pos th ↔
      (s ∈ pos ∧ (∃ e ∈ epochs, e.start ≤ s.t ∧ s.t < e.stop) ∧
        ∀ v, th = some v → s.speed < v) := by
  rw [← epochIdOf_ne_neg_one_iff]
  simp only [retained_by_speed, List.mem_map]
  constructor
  · rintro ⟨p, hp, rfl⟩
    obtain ⟨h1, h2, h3, h4⟩ := (mem_retainedWithId epochs pos th p).mp hp
    exact ⟨h1, h2 ▸ h3, h4⟩
  · rintro ⟨h1, h3, h4⟩
    exact ⟨(epochIdOf epochs s.t, s),
      (mem_retainedWithId epochs pos th _).mpr ⟨h1, rfl, h3, h4⟩, rfl⟩

/-- C5: `filtered_by_speed` retains exactly the position samples lying in
some epoch whose speed is strictly below the threshold (samples at or above
the threshold are discarded); with `speed_thresh=None` every in-epoch
sample is retained with no speed filtering. -/
theorem C5_speed_filter_membership (epochs : List Epoch)
    (pos : List PosSample) (s : PosSample) :
    (∀ th : ℚ, s ∈ retained_by_speed epochs pos (some th) ↔
      (s ∈ pos ∧ (∃ e ∈ epochs, e.start ≤ s.t ∧ s.t < e.stop) ∧
        s.speed < th)) ∧
    (s ∈ retained_by_speed epochs pos none ↔
      (s ∈ pos ∧ ∃ e ∈ epochs, e.start ≤ s.t ∧ s.t < e.stop)) := by
  constructor
  · intro th
    rw [mem_retained_by_speed]
    simp
  · rw [mem_retained_by_speed]
    simp

/-- A group key occurs among the keys exactly when some retained row
carries it. -/
theorem mem_groupKeys (ret : List (ℤ × PosSample)) (id : ℤ) :
    id ∈ groupKeys ret ↔ ∃ p ∈ ret, p.1 = id := by
  simp [groupKeys, mem_sortInts, List.mem_dedup, List.mem_map]

/-- A group is nonempty exactly when some retained row carries its key. -/
theorem groupRows_ne_nil_iff (ret : List (ℤ × PosSample)) (id : ℤ) :
    groupRows ret id ≠ [] ↔ ∃ p ∈ ret, p.1 = id := by
  rw [groupRows, ← List.length_pos_iff_ne_nil, List.length_map,
    List.length_pos_iff_exists_mem]
  constructor
  · rintro ⟨p, hp⟩
    rw [List.mem_filter] at hp
    exact ⟨p, hp.1, by simpa using hp.2⟩
  · rintro ⟨p, hp, hid⟩
    exact ⟨p, List.mem_filter.mpr ⟨hp, by simpa using hid⟩⟩

/-- Membership in the output rows of `filtered_by_speed`. -/
theorem mem_filtered_by_speed (epochs : List Epoch) (pos : List PosSample)
    (th : Option ℚ) (row : EpochRow) :
    row ∈ filtered_by_speed epochs pos th ↔
      ∃ k ∈ groupKeys (retainedWithId epochs pos th),
        groupAggRow (retainedWithId epochs pos th) k = row := by
  simp [filtered_by_speed, List.mem_map]

/-- C6: every epoch group with at least one surviving sample produces a row
whose `start` is the first retained sample's timestamp, whose `stop` is the
last retained sample's timestamp, and whose `n_samples` is the number of
retained samples in the group; a group with no surviving samples produces
no row. -/
theorem C6_epoch_row_aggregation (epochs : List Epoch) (pos : List PosSample)
    (th : Option ℚ) (id : ℤ) :
    (groupRows (retainedWithId epochs pos th) id ≠ [] →
      ∃ row ∈ filtered_by_speed epochs pos th, row.label = id) ∧
    (∀ row ∈ filtered_by_speed epochs pos th, row.label = id →
      row.start =
          ((groupRows (retainedWithId epochs pos th) id).map
            (fun s => s.t)).headD 0 ∧
        row.stop =
          ((groupRows (retainedWithId epochs pos th) id).map
            (fun s => s.t)).getLastD 0 ∧
        row.n_samples = (groupRows (retainedWithId epochs pos th) id).length) ∧
    (groupRows (retainedWithId epochs pos th) id = [] →
      ∀ row ∈ filtered_by_speed epochs pos th, row.label ≠ id) := by
  refine ⟨fun hne => ?_, fun row hrow hlab => ?_, fun hnil row hrow hlab => ?_⟩
  · refine ⟨groupAggRow (retainedWithId epochs pos th) id,
      (mem_filtered_by_speed epochs pos th _).mpr ⟨id, ?_, rfl⟩, rfl⟩
    exact (mem_groupKeys _ id).mpr ((groupRows_ne_nil_iff _ id).mp hne)
  · obtain ⟨k, -, hk⟩ := (mem_filtered_by_speed epochs pos th row).mp hrow
    have hkid : k = id := by rw [← hk] at hlab; exact hlab
    subst hkid
    rw [← hk]
    refine ⟨rfl, rfl, ?_⟩
    simp [groupAggRow]
  · obtain ⟨k, hkmem, hk⟩ := (mem_filtered_by_speed epochs pos th row).mp hrow
    have hkid : k = id := by rw [← hk] at hlab; exact hlab
    subst hkid
    exact (groupRows_ne_nil_iff _ k).mpr ((mem_groupKeys _ k).mp hkmem) hnil

/-- Witness for C6 at a concrete input: one epoch, three samples, one above
the speed threshold. -/
theorem C6_epoch_row_aggregation_witness :
    groupRows (retainedWithId [⟨0, 10⟩] [⟨1, 0, 1⟩, ⟨2, 0, 9⟩, ⟨3, 0, 2⟩]
        (some 5)) 0 ≠ [] ∧
      ∃ row ∈ filtered_by_speed [⟨0, 10⟩] [⟨1, 0, 1⟩, ⟨2, 0, 9⟩, ⟨3, 0, 2⟩]
        (some 5), row.label = 0 :=
  ⟨by decide,
    (C6_epoch_row_aggregation [⟨0, 10⟩] [⟨1, 0, 1⟩, ⟨2, 0, 9⟩, ⟨3, 0, 2⟩]
      (some 5) 0).1 (by decide)⟩

/-- Counterexample to C7 as stated: with epochs `[0, 2)`, two in-epoch
samples at `t = 0` and `t = 1` below the speed threshold, the first
application retains both and re-derives the epoch as `[0, 1)`; since epochs
are half-open (spec §3), the second application drops the sample at
`t = 1`, so the filter is not idempotent. -/
theorem C7_idempotence_counterexample :
    (⟨1, 1, 0⟩ : PosSample) ∈
        retained_by_speed [⟨0, 2⟩] [⟨0, 0, 0⟩, ⟨1, 1, 0⟩] (some 5) ∧
      (⟨1, 1, 0⟩ : PosSample) ∉
        retained_by_speed
          (rowsAsEpochs (filtered_by_speed [⟨0, 2⟩] [⟨0, 0, 0⟩, ⟨1, 1, 0⟩]
            (some 5)))
          (retained_by_speed [⟨0, 2⟩] [⟨0, 0, 0⟩, ⟨1, 1, 0⟩] (some 5))
          (some 5) := by
  decide

/-- C7 (amended): re-applying the filter to its own output (the produced
epochs and the retained samples, with the same threshold) retains a SUBSET
of the originally retained samples — never a new sample — but not
necessarily all of them: a sample whose timestamp equals its group's
re-derived `stop` lies outside the half-open epoch `[start, stop)` and is
dropped, so exact idempotence fails (see the counterexample). -/
theorem C7_speed_filter_subset (epochs : List Epoch) (pos : List PosSample)
    (th : Option ℚ) (s : PosSample)
    (h : s ∈ retained_by_speed
      (rowsAsEpochs (filtered_by_speed epochs pos th))
      (retained_by_speed epochs pos th) th) :
    s ∈ retained_by_speed epochs pos th :=
  ((mem_retained_by_speed _ _ _ s).mp h).1

/-- Witness for C7 (amended) at the counterexample's input: the sample at
`t = 0` survives the second application and is indeed among the first
application's samples. -/
theorem C7_speed_filter_subset_witness :
    (⟨0, 0, 0⟩ : PosSample) ∈
        retained_by_speed
          (rowsAsEpochs (filtered_by_speed [⟨0, 2⟩] [⟨0, 0, 0⟩, ⟨1, 1, 0⟩]
            (some 5)))
          (retained_by_speed [⟨0, 2⟩] [⟨0, 0, 0⟩, ⟨1, 1, 0⟩] (some 5))
          (some 5) ∧
      (⟨0, 0, 0⟩ : PosSample) ∈
        retained_by_speed [⟨0, 2⟩] [⟨0, 0, 0⟩, ⟨1, 1, 0⟩] (some 5) :=
  ⟨by decide,
    C7_speed_filter_subset [⟨0, 2⟩] [⟨0, 0, 0⟩, ⟨1, 1, 0⟩] (some 5)
      ⟨0, 0, 0⟩ (by decide)⟩

/-! ## Positivity of the Gaussian smoothing kernel

The lemmas below are generic in the kernel profile `φ`, assuming only that
`φ` is strictly positive on nonnegative arguments — a property shared by the
true Gaussian profile `exp (-t)` and by the rational stand-in
`gaussProfile`, so every conclusion drawn from them holds for scipy's
actual kernel as well. -/

theorem gaussProfile_pos {t : ℚ} (ht : 0 ≤ t) : 0 < gaussProfile t := by
  unfold gaussProfile
  have h : 0 < 1 + t + t ^ 2 / 2 := by positivity
  positivity

theorem gaussRadius_one : gaussRadius 1 = 4 := by
  unfold gaussRadius
  have h1 : (4 * 1 + 1/2 : ℚ) = 9/2 := by norm_num
  have h2 : ⌊(9/2 : ℚ)⌋ = 4 := by
    rw [Int.floor_eq_iff] <;> norm_num
  rw [h1, h2]
  rfl

theorem gaussRadius_zero : gaussRadius 0 = 0 := by
  unfold gaussRadius
  have h1 : (4 * 0 + 1/2 : ℚ) = 1/2 := by norm_num
  have h2 : ⌊(1/2 : ℚ)⌋ = 0 := by
    rw [Int.floor_eq_iff] <;> norm_num
  rw [h1, h2]
  rfl

theorem gaussWeightsRaw_length (φ : ℚ → ℚ) (σ : ℚ) :
    (gaussWeightsRaw φ σ).length = 2 * gaussRadius σ + 1 := by
  simp [gaussWeightsRaw]

theorem gaussWeights_length (φ : ℚ → ℚ) (σ : ℚ) :
    (gaussWeights φ σ).length = 2 * gaussRadius σ + 1 := by
  simp [gaussWeights, gaussWeightsRaw_length]

theorem gaussWeightsRaw_pos (φ : ℚ → ℚ) (σ : ℚ)
    (hφ : ∀ t, 0 ≤ t → 0 < φ t) :
    ∀ w ∈ gaussWeightsRaw φ σ, 0 < w := by
  intro w hw
  simp only [gaussWeightsRaw, List.mem_map, List.mem_range] at hw
  obtain ⟨j, -, rfl⟩ := hw
  apply hφ
  apply div_nonneg
  · exact_mod_cast sq_nonneg ((j : ℤ) - (gaussRadius σ : ℤ))
  · positivity

theorem gaussWeightsRaw_sum_pos (φ : ℚ → ℚ) (σ : ℚ)
    (hφ : ∀ t, 0 ≤ t → 0 < φ t) : 0 < (gaussWeightsRaw φ σ).sum := by
  apply List.sum_pos _ (gaussWeightsRaw_pos φ σ hφ)
  intro h
  have hl := congrArg List.length h
  rw [gaussWeightsRaw_length] at hl
  simp at hl

theorem gaussWeights_pos (φ : ℚ → ℚ) (σ : ℚ)
    (hφ : ∀ t, 0 ≤ t → 0 < φ t) :
    ∀ w ∈ gaussWeights φ σ, 0 < w := by
  intro w hw
  simp only [gaussWeights, List.mem_map] at hw
  obtain ⟨v, hv, rfl⟩ := hw
  exact div_pos (gaussWeightsRaw_pos φ σ hφ v hv)
    (gaussWeightsRaw_sum_pos φ σ hφ)

theorem getD_zero_nonneg (xs : List ℚ) (h : ∀ x ∈ xs, 0 ≤ x) (k : ℕ) :
    0 ≤ xs.getD k 0 := by
  by_cases hk : k < xs.length
  · rw [List.getD_eq_getElem _ _ hk]
    exact h _ (List.getElem_mem hk)
  · rw [List.getD_eq_default _ _ (le_of_not_lt hk)]

/-- The filtered list has the input's length. -/
theorem gaussianFilter1dWith_length (φ : ℚ → ℚ) (σ : ℚ) (xs : List ℚ) :
    (gaussianFilter1dWith φ σ xs).length = xs.length := by
  simp [gaussianFilter1dWith]

/-- The value of the filtered list at an in-range index. -/
theorem gaussianFilter1dWith_get? (φ : ℚ → ℚ) (σ : ℚ) (xs : List ℚ)
    (i : ℕ) (hi : i < xs.length) :
    (gaussianFilter1dWith φ σ xs).get? i =
      some (((List.range (2 * gaussRadius σ + 1)).map (fun j =>
        (gaussWeights φ σ).getD j 0 *
          xs.getD (reflectIndex xs.length
            ((i : ℤ) + (j : ℤ) - (gaussRadius σ : ℤ))) 0)).sum) := by
  unfold gaussianFilter1dWith
  rw [List.get?_map, List.get?_range hi]
  rfl

/-- Positivity of a smoothed value: for any positive kernel profile, if the
input is entrywise nonnegative and the truncated window at index `i` covers
a strictly positive input entry, the smoothed value at `i` is strictly
positive.  This is the fact that makes Gaussian smoothing spread positive
mass into zero bins; it holds for the true Gaussian kernel for the same
reason. -/
theorem gaussianFilter1dWith_get?_pos (φ : ℚ → ℚ) (σ : ℚ)
    (hφ : ∀ t, 0 ≤ t → 0 < φ t) (xs : List ℚ) (hxs : ∀ x ∈ xs, 0 ≤ x)
    (i j : ℕ) (hi : i < xs.length) (hj : j < 2 * gaussRadius σ + 1)
    (hpos : 0 < xs.getD (reflectIndex xs.length
      ((i : ℤ) + (j : ℤ) - (gaussRadius σ : ℤ))) 0) :
    ∃ v, (gaussianFilter1dWith φ σ xs).get? i = some v ∧ 0 < v := by
  refine ⟨_, gaussianFilter1dWith_get? φ σ xs i hi, ?_⟩
  have hwnn : ∀ k, 0 ≤ (gaussWeights φ σ).getD k 0 :=
    fun k => getD_zero_nonneg _
      (fun w hw => le_of_lt (gaussWeights_pos φ σ hφ w hw)) k
  have hnn : ∀ x ∈ (List.range (2 * gaussRadius σ + 1)).map (fun j =>
      (gaussWeights φ σ).getD j 0 *
        xs.getD (reflectIndex xs.length
          ((i : ℤ) + (j : ℤ) - (gaussRadius σ : ℤ))) 0), 0 ≤ x := by
    intro x hx
    simp only [List.mem_map, List.mem_range] at hx
    obtain ⟨k, -, rfl⟩ := hx
    exact mul_nonneg (hwnn k) (getD_zero_nonneg xs hxs _)
  have hjw : 0 < (gaussWeights φ σ).getD j 0 := by
    have hjlen : j < (gaussWeights φ σ).length := by
      rw [gaussWeights_length]; exact hj
    rw [List.getD_eq_getElem _ _ hjlen]
    exact gaussWeights_pos φ σ hφ _ (List.getElem_mem hjlen)
  have hmem : (gaussWeights φ σ).getD j 0 *
      xs.getD (reflectIndex xs.length
        ((i : ℤ) + (j : ℤ) - (gaussRadius σ : ℤ))) 0 ∈
        (List.range (2 * gaussRadius σ + 1)).map (fun j =>
          (gaussWeights φ σ).getD j 0 *
            xs.getD (reflectIndex xs.length
              ((i : ℤ) + (j : ℤ) - (gaussRadius σ : ℤ))) 0) :=
    List.mem_map.mpr ⟨j, List.mem_range.mpr hj, rfl⟩
  exact lt_of_lt_of_le (mul_pos hjw hpos) (List.single_le_sum hnn _ hmem)

/-- Reflection is the identity on in-range indices. -/
theorem reflectIndex_coe {n i : ℕ} (h : i < n) :
    reflectIndex n (i : ℤ) = i := by
  unfold reflectIndex
  have hmod : (i : ℤ) % (2 * (n : ℤ)) = i :=
    Int.emod_eq_of_lt (by positivity) (by push_cast; omega)
  rw [hmod]
  simp [h]

/-- With sigma `0` the kernel radius is `0` and the single normalized weight
is `1`: the filter is the identity, exactly as in scipy. -/
theorem gaussian_filter1d_zero (xs : List ℚ) : gaussian_filter1d 0 xs = xs := by
  apply List.ext_get?
  intro i
  by_cases hi : i < xs.length
  · rw [gaussian_filter1d, gaussianFilter1dWith_get? _ _ _ _ hi,
      List.get?_eq_getElem?, List.getElem?_eq_getElem hi]
    rw [gaussRadius_zero]
    have hr1 : List.range (2 * 0 + 1) = [0] := rfl
    have hw : gaussWeights gaussProfile 0 = [1] := by
      have hraw : gaussWeightsRaw gaussProfile 0 = [1] := by
        have hr1' : List.range (2 * gaussRadius 0 + 1) = [0] := by
          rw [gaussRadius_zero]
          rfl
        simp only [gaussWeightsRaw, hr1', List.map_cons, List.map_nil,
          gaussRadius_zero]
        norm_num [gaussProfile]
      simp [gaussWeights, hraw]
    rw [hr1, hw]
    simp only [List.map_cons, List.map_nil, List.sum_cons, List.sum_nil]
    have harg : ((i : ℤ) + ((0 : ℕ) : ℤ) - ((0 : ℕ) : ℤ)) = (i : ℤ) := by
      simp
    rw [harg, reflectIndex_coe hi, List.getD_eq_getElem _ _ hi]
    norm_num
  · rw [List.get?_eq_none.mpr, List.get?_eq_none.mpr]
    · omega
    · rw [gaussian_filter1d, gaussianFilter1dWith_length]
      omega

/-! ## Claim C8: occupancy smoothing conditions -/

/-- The smoothed value of `[1, 0]` at index `1` is strictly positive: the
kernel window reaches the mass in bin `0`.  Shared by the C1 and C8
counterexamples. -/
theorem gaussian_filter1d_one_pair_pos :
    ∃ v, (gaussian_filter1d 1 [(1 : ℚ), 0]).get? 1 = some v ∧ 0 < v := by
  rw [gaussian_filter1d]
  refine gaussianFilter1dWith_get?_pos gaussProfile 1
    (fun t ht => gaussProfile_pos ht) [(1 : ℚ), 0] ?_ 1 3 (by norm_num)
    (by rw [gaussRadius_one]; omega) ?_
  · intro x hx
    simp only [List.mem_cons, List.not_mem_nil, or_false] at hx
    rcases hx with rfl | rfl <;> norm_num
  · rw [gaussRadius_one]
    have harg : (((1 : ℕ) : ℤ) + ((3 : ℕ) : ℤ) - ((4 : ℕ) : ℤ)) =
        ((0 : ℕ) : ℤ) := by
      simp
    rw [harg, reflectIndex_coe (by norm_num : (0 : ℕ) < [(1 : ℚ), 0].length)]
    norm_num

/-- The length of a `gaussian_filter1d` output equals its input's. -/
theorem gaussian_filter1d_length (σ : ℚ) (xs : List ℚ) :
    (gaussian_filter1d σ xs).length = xs.length := by
  rw [gaussian_filter1d, gaussianFilter1dWith_length]

/-- Counterexample to C8 as stated: with sigma `(1, 0)` (one positive and
one zero component) the 2-D variant returns the RAW histogram (its branch
requires both components positive), while the claim demands the
Gaussian-smoothed histogram, which differs from the raw one under either
axis convention for the sigma pair. -/
theorem C8_smoothing_condition_counterexample :
    (Pf2D.compute_occupancy_counts [0] [0] [0, 1, 2] [0, 1, 2]
          (some (1, 0))).1 =
        histogram2d [0] [0] [0, 1, 2] [0, 1, 2] ∧
      histogram2d [0] [0] [0, 1, 2] [0, 1, 2] = [[1, 0], [0, 0]] ∧
      gaussian_filter2d 0 1 [[(1 : ℚ), 0], [0, 0]] ≠ [[1, 0], [0, 0]] ∧
      gaussian_filter2d 1 0 [[(1 : ℚ), 0], [0, 0]] ≠ [[1, 0], [0, 0]] := by
  have hc : (decide ((0 : ℚ) < 1) && decide ((0 : ℚ) < 0)) = false := by
    simp
  have hM : List.transpose [[(1 : ℚ), 0], [0, 0]] = [[1, 0], [0, 0]] := by
    rfl
  have hid : List.map (gaussian_filter1d 0) [[(1 : ℚ), 0], [0, 0]] =
      [[1, 0], [0, 0]] := by
    simp [gaussian_filter1d_zero]
  obtain ⟨v, hv, hvpos⟩ := gaussian_filter1d_one_pair_pos
  refine ⟨?_, ?_, ?_, ?_⟩
  · simp [Pf2D.compute_occupancy_counts, smoothPosBoth, hc]
  · decide
  · rw [gaussian_filter2d]
    simp only [filterAxis0, filterAxis1]
    rw [hM, hid, hM, List.map_cons, List.map_cons, List.map_nil]
    intro h
    rw [List.cons_eq_cons] at h
    have h1 := congrArg (fun l => l.get? 1) h.1
    simp only at h1
    rw [hv, show ([(1 : ℚ), 0].get? 1) = some 0 from rfl] at h1
    exact absurd (Option.some_inj.mp h1) (ne_of_gt hvpos)
  · have hlen1 : (gaussian_filter1d 1 [(1 : ℚ), 0]).length = 2 := by
      rw [gaussian_filter1d_length]; rfl
    have hlen2 : (gaussian_filter1d 1 [(0 : ℚ), 0]).length = 2 := by
      rw [gaussian_filter1d_length]; rfl
    obtain ⟨u, v', huv⟩ := List.length_eq_two.mp hlen1
    obtain ⟨p, q, hpq⟩ := List.length_eq_two.mp hlen2
    have hv'v : v' = v := by
      have h2 := hv
      rw [huv, show ([u, v'].get? 1) = some v' from rfl] at h2
      exact Option.some_inj.mp h2
    rw [gaussian_filter2d]
    simp only [filterAxis0, filterAxis1]
    rw [hM, List.map_cons, List.map_cons, List.map_nil, huv, hpq]
    have htr : List.transpose [[u, v'], [p, q]] = [[u, p], [v', q]] := rfl
    rw [htr]
    simp only [List.map_cons, List.map_nil, gaussian_filter1d_zero]
    intro h
    rw [List.cons_eq_cons] at h
    obtain ⟨-, h2⟩ := h
    rw [List.cons_eq_cons] at h2
    obtain ⟨h3, -⟩ := h2
    rw [List.cons_eq_cons] at h3
    exact absurd (hv'v ▸ h3.1) (ne_of_gt hvpos)

/-- C8 (amended): the 2-D variant smooths the raw histogram exactly when
BOTH sigma components are positive (with the sigma pair flipped,
`sigma=(smooth[1], smooth[0])`), returning the raw histogram otherwise —
in particular for a sigma vector with one positive and one zero component;
the N-D variant smooths exactly when ANY component is positive (sigma
unflipped).  The two variants are not uniform. -/
theorem C8_occupancy_smoothing (x y xbin ybin : List ℚ) (s0 s1 : ℚ) :
    (¬(0 < s0 ∧ 0 < s1) →
      (Pf2D.compute_occupancy_counts x y xbin ybin (some (s0, s1))).1 =
        histogram2d x y xbin ybin) ∧
    (0 < s0 ∧ 0 < s1 →
      (Pf2D.compute_occupancy_counts x y xbin ybin (some (s0, s1))).1 =
        gaussian_filter2d s1 s0 (histogram2d x y xbin ybin)) ∧
    (0 < s0 ∨ 0 < s1 →
      (PlacefieldND.compute_occupancy_counts_2d x y xbin ybin
          (some (s0, s1))).1 =
        gaussian_filter2d s0 s1 (histogram2d x y xbin ybin)) ∧
    (¬(0 < s0 ∨ 0 < s1) →
      (PlacefieldND.compute_occupancy_counts_2d x y xbin ybin
          (some (s0, s1))).1 =
        histogram2d x y xbin ybin) := by
  refine ⟨fun h => ?_, fun h => ?_, fun h => ?_, fun h => ?_⟩ <;>
    simp [Pf2D.compute_occupancy_counts,
      PlacefieldND.compute_occupancy_counts_2d, smoothPosBoth, smoothPosAny,
      h, not_and_or] at * <;>
    simp [h]

/-- Witness for C8 (amended), discharging each branch hypothesis at a
concrete sigma. -/
theorem C8_occupancy_smoothing_witness :
    ((Pf2D.compute_occupancy_counts [1/2] [1/2] [0, 1, 2] [0, 1, 2]
        (some (1, 0))).1 = histogram2d [1/2] [1/2] [0, 1, 2] [0, 1, 2]) ∧
    ((Pf2D.compute_occupancy_counts [1/2] [1/2] [0, 1, 2] [0, 1, 2]
        (some (1, 1))).1 =
      gaussian_filter2d 1 1 (histogram2d [1/2] [1/2] [0, 1, 2] [0, 1, 2])) ∧
    ((PlacefieldND.compute_occupancy_counts_2d [1/2] [1/2] [0, 1, 2]
        [0, 1, 2] (some (1, 0))).1 =
      gaussian_filter2d 1 0 (histogram2d [1/2] [1/2] [0, 1, 2] [0, 1, 2])) ∧
    ((PlacefieldND.compute_occupancy_counts_2d [1/2] [1/2] [0, 1, 2]
        [0, 1, 2] (some (0, 0))).1 =
      histogram2d [1/2] [1/2] [0, 1, 2] [0, 1, 2]) :=
  ⟨(C8_occupancy_smoothing [1/2] [1/2] [0, 1, 2] [0, 1, 2] 1 0).1
      (by intro h; exact absurd h.2 (by decide)),
   (C8_occupancy_smoothing [1/2] [1/2] [0, 1, 2] [0, 1, 2] 1 1).2.1
      ⟨by decide, by decide⟩,
   (C8_occupancy_smoothing [1/2] [1/2] [0, 1, 2] [0, 1, 2] 1 0).2.2.1
      (Or.inl (by decide)),
   (C8_occupancy_smoothing [1/2] [1/2] [0, 1, 2] [0, 1, 2] 0 0).2.2.2
      (by intro h; rcases h with h | h <;> exact absurd h (by decide))⟩

/-! ## Claim C1: zero-occupancy closure of the tuning maps -/

theorem histogram_length (xs edges : List ℚ) :
    (histogram xs edges).length = edges.length - 1 := by
  simp [histogram]

/-- Dividing a spike map by a masked occupancy yields exactly `0` at each
bin where the original occupancy is exactly `0`: the sentinel NaN makes the
quotient NaN and `nan_to_num` maps it to `0`. -/
theorem divNanToNum_get?_zero (spikes : List ℚ) (occ : List NFloat) (i : ℕ)
    (hlen : occ.length = spikes.length)
    (hi : occ.get? i = some (NFloat.val 0)) :
    (divNanToNum spikes (maskZeroToNan occ)).get? i = some 0 := by
  have hi' : i < occ.length := (List.get?_eq_some.mp hi).1
  have hisp : i < spikes.length := hlen ▸ hi'
  obtain ⟨s, hs⟩ : ∃ s, spikes.get? i = some s :=
    ⟨_, List.get?_eq_get hisp⟩
  rw [divNanToNum, List.get?_zipWith', hs, maskZeroToNan, List.get?_map, hi]
  simp [NFloat.div, NFloat.toNumOrZero]

/-- The unsmoothed tuning map of `Pf1D._compute_tuning_map` is the raw
spike histogram divided by the sentinel-masked occupancy. -/
theorem Pf1D_never_smoothed_eq (spk_x xbin : List ℚ) (occ : List NFloat)
    (smooth : Option ℚ) :
    (Pf1D.compute_tuning_map spk_x xbin occ
        smooth).never_smoothed_occupancy_weighted_tuning_map =
      divNanToNum (histogram spk_x xbin) (maskZeroToNan occ) := by
  simp [Pf1D.compute_tuning_map, Pf1D.compute_spikes_map,
    should_smooth_spikes_map, smoothPos1]

/-- When final-map smoothing does not fire (sigma absent or nonpositive),
the returned tuning map coincides with the unsmoothed quotient. -/
theorem Pf1D_final_eq_of_not_smooth (spk_x xbin : List ℚ)
    (occ : List NFloat) (smooth : Option ℚ) (h : smoothPos1 smooth = false) :
    (Pf1D.compute_tuning_map spk_x xbin occ
        smooth).occupancy_weighted_tuning_map =
      divNanToNum (histogram spk_x xbin) (maskZeroToNan occ) := by
  have hn : smoothPos1 none = false := rfl
  simp [Pf1D.compute_tuning_map, Pf1D.compute_spikes_map,
    should_smooth_spikes_map, should_smooth_final_tuning_map, hn, h]

theorem Pf2D_never_smoothed_eq (spk_x spk_y xbin ybin : List ℚ)
    (occ : List (List NFloat)) (smooth : Option (ℚ × ℚ)) :
    (Pf2D.compute_tuning_map spk_x spk_y xbin ybin occ
        smooth).never_smoothed_occupancy_weighted_tuning_map =
      divNanToNum2 (histogram2d spk_x spk_y xbin ybin)
        (occ.map maskZeroToNan) := by
  simp [Pf2D.compute_tuning_map, Pf2D.compute_spikes_map,
    should_smooth_spikes_map, smoothPosBoth]

theorem Pf2D_final_eq_of_not_smooth (spk_x spk_y xbin ybin : List ℚ)
    (occ : List (List NFloat)) (smooth : Option (ℚ × ℚ))
    (h : smoothPosBoth smooth = false) :
    (Pf2D.compute_tuning_map spk_x spk_y xbin ybin occ
        smooth).occupancy_weighted_tuning_map =
      divNanToNum2 (histogram2d spk_x spk_y xbin ybin)
        (occ.map maskZeroToNan) := by
  have hn : smoothPosBoth none = false := rfl
  simp [Pf2D.compute_tuning_map, Pf2D.compute_spikes_map,
    should_smooth_spikes_map, should_smooth_final_tuning_map, hn, h]

theorem histogram2d_get? (xs ys xbin ybin : List ℚ) (i : ℕ)
    (hi : i < xbin.length - 1) :
    (histogram2d xs ys xbin ybin).get? i =
        some ((List.range (ybin.length - 1)).map
          (fun j =>
            (((xs.zip ys).filter
              (fun p => inBin xbin i p.1 && inBin ybin j p.2)).length : ℚ))) := by
  rw [histogram2d, List.get?_map, List.get?_range hi]
  rfl

/-- Counterexample to C1 as stated: with the default final-map smoothing
enabled and sigma `1`, one spike in bin `0` and occupancy `[1, 0]`, the
returned tuning map is strictly positive at the zero-occupancy bin `1`
(the Gaussian window spreads the neighboring rate into it), not `0.0`. -/
theorem C1_zero_occupancy_counterexample :
    ([NFloat.val 1, NFloat.val 0].get? 1 = some (NFloat.val 0)) ∧
      (Pf1D.compute_tuning_map [0] [0, 1, 2] [NFloat.val 1, NFloat.val 0]
          (some 1)).occupancy_weighted_tuning_map.get? 1 ≠ some 0 := by
  refine ⟨rfl, ?_⟩
  have hhist : histogram [0] [0, 1, 2] = [1, 0] := by decide
  have hmask : maskZeroToNan [NFloat.val 1, NFloat.val 0] =
      [NFloat.val 1, NFloat.nan] := by decide
  have hdiv : divNanToNum [1, 0] [NFloat.val 1, NFloat.nan] = [1, 0] := by
    simp [divNanToNum, NFloat.div, NFloat.toNumOrZero]
  have h01 : (0 : ℚ) < 1 := by norm_num
  have hmap : (Pf1D.compute_tuning_map [0] [0, 1, 2]
      [NFloat.val 1, NFloat.val 0]
      (some 1)).occupancy_weighted_tuning_map = gaussian_filter1d 1 [1, 0] := by
    simp [Pf1D.compute_tuning_map, Pf1D.compute_spikes_map,
      should_smooth_spikes_map, should_smooth_final_tuning_map, smoothPos1,
      hhist, hmask, hdiv, h01]
  rw [hmap]
  obtain ⟨v, hv, hvpos⟩ := gaussian_filter1d_one_pair_pos
  rw [hv]
  intro h
  exact absurd (Option.some_inj.mp h) (ne_of_gt hvpos)

/-- C1 (amended): at every bin where the occupancy is exactly `0`, the
returned unsmoothed tuning map is exactly `0.0` (and, being the image of
`nan_to_num`, never NaN), in the 1-D and 2-D variants (the N-D variant has
the same element-wise logic); the final tuning map is also exactly `0.0` at
such bins whenever final-map smoothing does not fire (sigma absent or
nonpositive) — but NOT in general when Gaussian smoothing is enabled, which
the counterexample shows.  Shape hypotheses state that the occupancy array
has the histogram's shape, as numpy broadcasting requires. -/
theorem C1_zero_occupancy_amended :
    (∀ (spk_x xbin : List ℚ) (occ : List NFloat) (smooth : Option ℚ) (i : ℕ),
      occ.length = xbin.length - 1 →
      occ.get? i = some (NFloat.val 0) →
      (Pf1D.compute_tuning_map spk_x xbin occ
          smooth).never_smoothed_occupancy_weighted_tuning_map.get? i
          = some 0 ∧
        (smoothPos1 smooth = false →
          (Pf1D.compute_tuning_map spk_x xbin occ
            smooth).occupancy_weighted_tuning_map.get? i = some 0)) ∧
    (∀ (spk_x spk_y xbin ybin : List ℚ) (occ : List (List NFloat))
        (smooth : Option (ℚ × ℚ)) (i j : ℕ) (row : List NFloat),
      occ.length = xbin.length - 1 →
      (∀ r ∈ occ, r.length = ybin.length - 1) →
      occ.get? i = some row → row.get? j = some (NFloat.val 0) →
      (∃ r', (Pf2D.compute_tuning_map spk_x spk_y xbin ybin occ
          smooth).never_smoothed_occupancy_weighted_tuning_map.get? i
            = some r' ∧ r'.get? j = some 0) ∧
        (smoothPosBoth smooth = false →
          ∃ r', (Pf2D.compute_tuning_map spk_x spk_y xbin ybin occ
            smooth).occupancy_weighted_tuning_map.get? i = some r' ∧
              r'.get? j = some 0)) := by
  constructor
  · intro spk_x xbin occ smooth i hlen hi
    have hq : (divNanToNum (histogram spk_x xbin)
        (maskZeroToNan occ)).get? i = some 0 :=
      divNanToNum_get?_zero _ occ i (by rw [histogram_length, hlen]) hi
    exact ⟨by rw [Pf1D_never_smoothed_eq]; exact hq,
      fun h => by rw [Pf1D_final_eq_of_not_smooth _ _ _ _ h]; exact hq⟩
  · intro spk_x spk_y xbin ybin occ smooth i j row hlen hrows hi hj
    have hi' : i < occ.length := (List.get?_eq_some.mp hi).1
    have hirow : row.length = ybin.length - 1 :=
      hrows row (List.get?_mem hi)
    have hh := histogram2d_get? spk_x spk_y xbin ybin i (hlen ▸ hi')
    have hq : (divNanToNum2 (histogram2d spk_x spk_y xbin ybin)
        (occ.map maskZeroToNan)).get? i =
          some (divNanToNum ((List.range (ybin.length - 1)).map
            (fun j =>
              (((spk_x.zip spk_y).filter
                (fun p => inBin xbin i p.1 && inBin ybin j p.2)).length : ℚ)))
            (maskZeroToNan row)) := by
      rw [divNanToNum2, List.get?_zipWith', hh, List.get?_map, hi]
      rfl
    have hrq : (divNanToNum ((List.range (ybin.length - 1)).map
        (fun j =>
          (((spk_x.zip spk_y).filter
            (fun p => inBin xbin i p.1 && inBin ybin j p.2)).length : ℚ)))
        (maskZeroToNan row)).get? j = some 0 :=
      divNanToNum_get?_zero _ row j (by simp [hirow]) hj
    constructor
    · exact ⟨_, by rw [Pf2D_never_smoothed_eq]; exact hq, hrq⟩
    · intro h
      exact ⟨_, by rw [Pf2D_final_eq_of_not_smooth _ _ _ _ _ _ h]; exact hq,
        hrq⟩

/-- Witness for C1 (amended) at concrete inputs for both variants. -/
theorem C1_zero_occupancy_witness :
    (([NFloat.val 0] : List NFloat).length = [(0 : ℚ), 1].length - 1 ∧
      [NFloat.val 0].get? 0 = some (NFloat.val 0) ∧
      ((Pf1D.compute_tuning_map [] [0, 1] [NFloat.val 0]
          none).never_smoothed_occupancy_weighted_tuning_map.get? 0
          = some 0 ∧
        (smoothPos1 none = false →
          (Pf1D.compute_tuning_map [] [0, 1] [NFloat.val 0]
            none).occupancy_weighted_tuning_map.get? 0 = some 0))) ∧
    (([[NFloat.val 0]] : List (List NFloat)).length = [(0 : ℚ), 1].length - 1 ∧
      (∃ r', (Pf2D.compute_tuning_map [] [] [0, 1] [0, 1] [[NFloat.val 0]]
          none).never_smoothed_occupancy_weighted_tuning_map.get? 0
            = some r' ∧ r'.get? 0 = some 0) ∧
        (smoothPosBoth none = false →
          ∃ r', (Pf2D.compute_tuning_map [] [] [0, 1] [0, 1] [[NFloat.val 0]]
            none).occupancy_weighted_tuning_map.get? 0 = some r' ∧
              r'.get? 0 = some 0)) :=
  ⟨⟨by decide, by decide,
    C1_zero_occupancy_amended.1 [] [0, 1] [NFloat.val 0] none 0 (by decide)
      (by decide)⟩,
   ⟨by decide,
    (C1_zero_occupancy_amended.2 [] [] [0, 1] [0, 1] [[NFloat.val 0]] none
      0 0 [NFloat.val 0] (by decide) (by decide) (by decide) (by decide)).1,
    (C1_zero_occupancy_amended.2 [] [] [0, 1] [0, 1] [[NFloat.val 0]] none
      0 0 [NFloat.val 0] (by decide) (by decide) (by decide) (by decide)).2⟩⟩

/-- Witness for C9 at a concrete raw occupancy. -/
theorem C9_normalized_occupancy_witness :
    ((∀ c ∈ [(2 : ℚ), 0], 0 ≤ c) ∧ ∃ c ∈ [(2 : ℚ), 0], c ≠ 0) ∧
      (normalizedOccupancy [(2 : ℚ), 0] 1).2.sum =
        ([(2 : ℚ), 0].sum) / ([(2 : ℚ), 0].sum + eps) :=
  ⟨⟨by decide, by decide⟩,
    (C9_normalized_occupancy [(2 : ℚ), 0] 1 (by decide) (by decide)).2.2.1⟩

end NeuroPy
